import Mathlib

/-!
Shallow embedding of the `neighborhood_analysis` crate (src/lib.rs, src/utils.rs).

Modelling conventions:
* Rust `f64` values are modelled as exact rationals `ℚ`; the only float
  behaviours the claims depend on are (a) whether a standard deviation is
  exactly zero and (b) IEEE division by zero, which `f64` reports as
  NaN/±∞.  Division is therefore modelled by `fdiv`, returning the
  `ZOut.divZero` marker when the divisor is zero (IEEE NaN or ±∞), and
  `f64::sqrt` by the executable rational approximation `sqrtQ`, which is
  zero exactly on non-positive inputs, matching `sqrt` on `f64` (IEEE
  sqrt is exact at 0 and positive on positive inputs).
* Rust `HashMap`s are modelled as association lists (`lookupA`,
  `updateA`, `pushA`); iteration order of a `HashMap` is arbitrary, the
  association list fixes one order.  A lookup/`unwrap` that would panic
  is modelled as `Option.none`, as is an out-of-bounds `Vec` index.
* Fallible iteration is via the explicit recursors `foldO` / `mapO`
  (fold/map over a list in the `Option` monad).
-/

/-- Association-list lookup: first entry whose key matches (models
`HashMap::get` / indexing). -/
def lookupA {α β : Type} [DecidableEq α] : List (α × β) → α → Option β
  | [], _ => none
  | (k, v) :: rest, key => if k = key then some v else lookupA rest key

/-- Replace the value stored at the first occurrence of `key` (no-op when the
key is absent).  Models in-place mutation through `HashMap::get_mut`. -/
def updateA {α β : Type} [DecidableEq α] : List (α × β) → α → β → List (α × β)
  | [], _, _ => []
  | (k, v) :: rest, key, nv =>
      if k = key then (k, nv) :: rest else (k, v) :: updateA rest key nv

/-- Append `x` to the list stored at the first occurrence of `key` (no-op when
the key is absent).  Models `map.get_mut(key).unwrap().push(x)` after the
lookup has been checked. -/
def pushA {α β : Type} [DecidableEq α] : List (α × List β) → α → β → List (α × List β)
  | [], _, _ => []
  | (k, v) :: rest, key, x =>
      if k = key then (k, v ++ [x]) :: rest else (k, v) :: pushA rest key x

/-- Fold a fallible step over a list, stopping at the first failure
(models a Rust loop whose body can panic / error). -/
def foldO {σ α : Type} (f : σ → α → Option σ) : σ → List α → Option σ
  | s, [] => some s
  | s, a :: as =>
      match f s a with
      | none => none
      | some s' => foldO f s' as

/-- Map a fallible function over a list, stopping at the first failure. -/
def mapO {α β : Type} (f : α → Option β) : List α → Option (List β)
  | [] => some []
  | a :: as =>
      match f a with
      | none => none
      | some b =>
          match mapO f as with
          | none => none
          | some bs => some (b :: bs)

/-! ### utils.rs numeric helpers -/

/-- `utils::mean` over `Vec<usize>`: sum/len, `0.0` for the empty list. -/
def mean (numbers : List ℕ) : ℚ :=
  if numbers.length > 0 then (numbers.sum : ℚ) / (numbers.length : ℚ) else 0

/-- `utils::mean_f` over `Vec<f64>`: sum/len, `0.0` for the empty list. -/
def mean_f (numbers : List ℚ) : ℚ :=
  if numbers.length > 0 then numbers.sum / (numbers.length : ℚ) else 0

/-- Executable stand-in for `f64::sqrt` on the exact rationals: on `q ≤ 0`
it is `0` (IEEE sqrt is exact at `0`; negative inputs do not arise here),
on `q > 0` it is the positive rational `⌊√(num·den)⌋ / den`.  The only
property of `f64::sqrt` the program's claims rely on is that the result is
zero exactly when the input is zero, which this approximation shares. -/
def sqrtQ (q : ℚ) : ℚ :=
  if q ≤ 0 then 0 else (Nat.sqrt (q.num.toNat * q.den) : ℚ) / (q.den : ℚ)

/-- `utils::std` over `Vec<usize>`: population standard deviation
(√(Σ(m−x)²/len)), `0.0` for the empty list. -/
def std (numbers : List ℕ) : ℚ :=
  if numbers.length > 0 then
    sqrtQ (((numbers.map (fun value => (mean numbers - (value : ℚ)) ^ 2)).sum) /
      (numbers.length : ℚ))
  else 0

/-- `utils::std_f` over `Vec<f64>`: population standard deviation,
`0.0` for the empty list. -/
def std_f (numbers : List ℚ) : ℚ :=
  if numbers.length > 0 then
    sqrtQ (((numbers.map (fun value => (mean_f numbers - value) ^ 2)).sum) /
      (numbers.length : ℚ))
  else 0

/-- Result of an `f64` division: either a finite value, or the marker for a
division by zero (IEEE NaN or ±∞). -/
inductive ZOut : Type
  | val (q : ℚ)
  | divZero
deriving DecidableEq

/-- `f64` division, keeping the division-by-zero outcome visible. -/
def fdiv (a b : ℚ) : ZOut :=
  if b = 0 then ZOut.divZero else ZOut.val (a / b)

/-! ### lib.rs: get_neighbors -/

/-- Squared Euclidean distance between two 2-D points. -/
def dist2 (p q : ℚ × ℚ) : ℚ := (p.1 - q.1) ^ 2 + (p.2 - q.2) ^ 2

/-- Modelled from the spec: the `KDBush` spatial index (an external crate,
not part of this repository's sources) — `query_radius(index, point, r)`
returns all point indices whose Euclidean distance to the query point is
≤ r, in unspecified order.  Distance ≤ r is expressed by the rational-exact
comparison `dist² ≤ r·r` (equivalent for `r ≥ 0`). -/
def queryRadius (points : List (ℚ × ℚ)) (c : ℚ × ℚ) (r : ℚ) : List ℕ :=
  ((points.enum.filter (fun ip => dist2 ip.2 c ≤ r * r)).map Prod.fst)

/-- `get_neighbors`: one radius query per point, keyed by the point's index
(the source initialises `result` with every index `0..len` mapped to an
empty vector and pushes each id found by `tree.within`). -/
def get_neighbors (points : List (ℚ × ℚ)) (r : ℚ) : List (ℕ × List ℕ) :=
  points.enum.map (fun ip => (ip.1, queryRadius points ip.2 r))

/-! ### lib.rs: comb_count_neighbors and comb_bootstrap -/

/-- `comb_count_neighbors`: for every entry `(k, v)` of `neighbors`, when
`x[k]` holds, count the neighbors `c ∈ v` with `y[c]`.  With `ignore_self`
the source compares the *position* `i` of the neighbor within `v` (from
`v.iter().enumerate()`) against `k`, not the neighbor value itself.
Out-of-bounds indexing (a Rust panic) is `none`. -/
def comb_count_neighbors (x y : List Bool) (neighbors : List (ℕ × List ℕ))
    (ignore_self : Bool) : Option ℕ :=
  foldO (fun count kv =>
    (x.get? kv.1).bind (fun xk =>
      if xk then
        if ignore_self then
          foldO (fun c ic =>
            if ic.1 ≠ kv.1 then
              (y.get? ic.2).map (fun yc => if yc then c + 1 else c)
            else some c) count kv.2.enum
        else
          foldO (fun c cc =>
            (y.get? cc).map (fun yc => if yc then c + 1 else c)) count kv.2
      else some count)) 0 neighbors

/-- `comb_bootstrap` with the random shuffles made explicit: the caller
supplies the list of shuffled copies of `y` (one per trial; the source
draws them with `thread_rng`).  The final statistic is
`(real − mean(perm_counts)) / std(perm_counts)` with **no** guard on a zero
standard deviation. -/
def comb_bootstrap (x y : List Bool) (neighbors : List (ℕ × List ℕ))
    (ignore_self : Bool) (shuffles : List (List Bool)) : Option ZOut :=
  (comb_count_neighbors x y neighbors ignore_self).bind (fun real =>
    (mapO (fun sy => comb_count_neighbors x sy neighbors ignore_self) shuffles).map
      (fun perm_counts => fdiv ((real : ℚ) - mean perm_counts) (std perm_counts)))

/-! ### lib.rs: CellCombs::new (combination registry) -/

/-- `Itertools::unique`: distinct elements in first-seen order. -/
def uniqueFirst (l : List String) : List String :=
  l.foldl (fun acc x => if x ∈ acc then acc else acc ++ [x]) []

/-- A combination: the source stores `vec![i1, i2]`, always of length two,
modelled as a pair. -/
abbrev Comb := String × String

/-- The unordered combination list: the source's
`for (i, e) in uni.iter().enumerate() { for t in i..uni.len() { combs.push(vec![e, uni[t]]) } }`;
the inner loop pairs the element at position `i` with every element of the
suffix of `uni` starting at `i`, so the double loop is the recursion on
suffixes below. -/
def unorderedCombs : List String → List Comb
  | [] => []
  | x :: xs => (x :: xs).map (fun b => (x, b)) ++ unorderedCombs xs

/-- The ordered combination list: `for i1 in uni { for i2 in uni { combs.push(vec![i1, i2]) } }`. -/
def orderedCombs (uni : List String) : List Comb :=
  uni.flatMap (fun i1 => uni.map (fun i2 => (i1, i2)))

/-- `CellCombs::new`: deduplicate the types, build the combination list for
the requested order convention, and build `cell_relationships`, which maps
every vocabulary label `i1` to the list `[(i1, i2) | i2 ∈ uni]` (this is
filled by the first double loop regardless of `order`). -/
def CellCombs.new (types : List String) (order : Bool) :
    List Comb × List (String × List Comb) :=
  let uni := uniqueFirst types
  (if order then orderedCombs uni else unorderedCombs uni,
   uni.map (fun i1 => (i1, uni.map (fun i2 => (i1, i2)))))

/-! ### lib.rs: count_neighbors -/

/-- The neighbor list actually counted for center `k`: with `ignore_self`
the source keeps exactly the entries whose *value* differs from `k`
(`v.iter().filter_map(|i| if i != k {..})`). -/
def filteredNeighbors (k : ℕ) (v : List ℕ) (ignore_self : Bool) : List ℕ :=
  if ignore_self then v.filter (fun i => i ≠ k) else v

/-- One `for comb in cell_relationships[cent_type]` iteration of
`count_neighbors`: look up the count of the partner label `comb.2` in the
neighbor-label multiset and push it onto `storage[comb]`, falling back to
the reversed key when `comb` is not registered
(`storage.get_mut(&vec![comb[1], comb[0]]).unwrap()`); `none` models the
panic when neither key exists. -/
def stepComb (neighLabels : List String) (storage : List (Comb × List ℕ))
    (comb : Comb) : Option (List (Comb × List ℕ)) :=
  let counts := neighLabels.count comb.2
  match lookupA storage comb with
  | some _ => some (pushA storage comb counts)
  | none =>
      match lookupA storage (comb.2, comb.1) with
      | some _ => some (pushA storage (comb.2, comb.1) counts)
      | none => none

/-- One `for (k, v) in neighbors` iteration of `count_neighbors`: read the
center's label (`types[*k]`), build the neighbor-label list (the `Counter`
is modelled by `List.count` over this list), look up the center's adjacency
list in `cell_relationships`, and run `stepComb` for each of its
combinations. -/
def processPoint (types : List String) (rel : List (String × List Comb))
    (ignore_self : Bool) (storage : List (Comb × List ℕ)) (kv : ℕ × List ℕ) :
    Option (List (Comb × List ℕ)) :=
  (types.get? kv.1).bind (fun cent =>
    (mapO types.get? (filteredNeighbors kv.1 kv.2 ignore_self)).bind (fun neighLabels =>
      (lookupA rel cent).bind (fun combs => foldO (stepComb neighLabels) storage combs)))

/-- `count_neighbors`: initialise one empty observation list per registered
combination, process every `(k, v)` entry of `neighbors`, then reduce each
observation list with `utils::mean`. -/
def count_neighbors (types : List String) (neighbors : List (ℕ × List ℕ))
    (cell_combs : List Comb) (rel : List (String × List Comb))
    (ignore_self : Bool) : Option (List (Comb × ℚ)) :=
  (foldO (processPoint types rel ignore_self)
      (cell_combs.map (fun comb => (comb, ([] : List ℕ)))) neighbors).map
    (fun storage => storage.map (fun kv => (kv.1, mean kv.2)))

/-! ### lib.rs: CellCombs::bootstrap -/

/-- The `for (k, v) in perm_result` loop of `bootstrap`: push each trial
value onto `simulate_data[k]` (the `unwrap` panic when `k` is not a
registered combination is `none`). -/
def accumulate (sim : List (Comb × List ℚ)) (perm : List (Comb × ℚ)) :
    Option (List (Comb × List ℚ)) :=
  foldO (fun s kv =>
    (lookupA s kv.1).map (fun _ => pushA s kv.1 kv.2)) sim perm

/-- Accumulation of all trial results into `simulate_data`, starting from
one empty list per registered combination. -/
def simulate_data (cell_combs : List Comb) (all_data : List (List (Comb × ℚ))) :
    Option (List (Comb × List ℚ)) :=
  foldO accumulate (cell_combs.map (fun comb => (comb, ([] : List ℚ)))) all_data

/-- The simulation phase of `CellCombs::bootstrap` with the random shuffles
made explicit: run `count_neighbors` once per shuffled label list and
accumulate the per-combination null distributions. -/
def bootstrapSim (neighbors : List (ℕ × List ℕ))
    (cell_combs : List Comb) (rel : List (String × List Comb))
    (ignore_self : Bool) (shuffles : List (List String)) :
    Option (List (Comb × List ℚ)) :=
  (mapO (fun ts => count_neighbors ts neighbors cell_combs rel ignore_self) shuffles).bind
    (fun all_data => simulate_data cell_combs all_data)

/-- The `gt`/`lt` tallies of the `method == "pval"` branch: the source's
loop is `if i >= real { gt += 1 } else if i <= real { lt += 1 }`, so a
trial value equal to `real` enters the first branch only. -/
def pvalTallies (v : List ℚ) (real : ℚ) : ℤ × ℤ :=
  v.foldl (fun gl i =>
    if i ≥ real then (gl.1 + 1, gl.2)
    else if i ≤ real then (gl.1, gl.2 + 1)
    else gl) (0, 0)

/-- The rest of the `"pval"` reduction: divide both tallies by `times + 1`,
derive the direction flag, the p-value `gt*dir + lt*(-dir)`, the
significance flag, and the signed indicator `sig * signum(dir - 0.5)`. -/
def pvalReduce (v : List ℚ) (real : ℚ) (times : ℕ) (pval : ℚ) : ℚ :=
  let gl := pvalTallies v real
  let gt : ℚ := (gl.1 : ℚ) / ((times : ℚ) + 1)
  let lt : ℚ := (gl.2 : ℚ) / ((times : ℚ) + 1)
  let dir : ℚ := if gt < lt then 1 else 0
  let udir : ℚ := -dir
  let p : ℚ := gt * dir + lt * udir
  let sig : ℚ := if p < pval then 1 else 0
  sig * (if dir - 1/2 > 0 then 1 else if dir - 1/2 < 0 then -1 else 0)

/-- The `"zscore"` reduction of `CellCombs::bootstrap`:
`if sd != 0.0 { (real - m) / sd } else { 0.0 }` — the division is guarded,
so the zero-variance case reports `0.0`. -/
def zscoreReduce (v : List ℚ) (real : ℚ) : ZOut :=
  let m := mean_f v
  let sd := std_f v
  if sd ≠ 0 then fdiv (real - m) sd else ZOut.val 0

/-- `CellCombs::bootstrap` end to end (shuffles explicit): real counts,
simulated null distributions, then one reduced statistic per combination
(`real_data[k]` panics — `none` — when the key is missing). -/
def CellCombs.bootstrap (types0 : List String) (order : Bool)
    (types : List String) (neighbors : List (ℕ × List ℕ)) (pval : ℚ)
    (method : String) (ignore_self : Bool) (shuffles : List (List String)) :
    Option (List (Comb × ZOut)) :=
  let combs := (CellCombs.new types0 order).1
  let rel := (CellCombs.new types0 order).2
  (count_neighbors types neighbors combs rel ignore_self).bind (fun real_data =>
    (bootstrapSim neighbors combs rel ignore_self shuffles).bind (fun sim =>
      foldO (fun acc kv =>
        (lookupA real_data kv.1).map (fun real =>
          acc ++ [(kv.1,
            if method = "pval" then
              ZOut.val (pvalReduce kv.2 real shuffles.length pval)
            else zscoreReduce kv.2 real)])) [] sim))

/-- Total number of observations stored across all combinations. -/
def totalObs (st : List (Comb × List ℕ)) : ℕ :=
  (st.map (fun kv => kv.2.length)).sum

/-- Sum of all observation values stored across all combinations. -/
def sumObs (st : List (Comb × List ℕ)) : ℕ :=
  (st.map (fun kv => kv.2.sum)).sum

/-! ### Association-list lemmas -/

theorem lookupA_nil {α β : Type} [DecidableEq α] (k : α) :
    lookupA ([] : List (α × β)) k = none := rfl

theorem lookupA_cons {α β : Type} [DecidableEq α] (k' : α) (v : β) (rest : List (α × β))
    (k : α) : lookupA ((k', v) :: rest) k = if k' = k then some v else lookupA rest k := rfl

theorem lookupA_isSome_iff {α β : Type} [DecidableEq α] (l : List (α × β)) (k : α) :
    (lookupA l k).isSome ↔ k ∈ l.map Prod.fst := by
  induction l with
  | nil => simp [lookupA]
  | cons kv rest ih =>
      obtain ⟨k', v⟩ := kv
      by_cases h : k' = k
      · subst h; simp [lookupA_cons]
      · simp only [lookupA_cons, if_neg h, List.map_cons, List.mem_cons, ih]
        constructor
        · exact fun hm => Or.inr hm
        · rintro (rfl | hm)
          · exact absurd rfl h
          · exact hm

theorem pushA_map_fst {α β : Type} [DecidableEq α] (l : List (α × List β)) (k : α) (x : β) :
    (pushA l k x).map Prod.fst = l.map Prod.fst := by
  induction l with
  | nil => rfl
  | cons kv rest ih =>
      obtain ⟨k', v⟩ := kv
      by_cases h : k' = k <;> simp [pushA, h, ih]

theorem lookupA_pushA_self {α β : Type} [DecidableEq α] (l : List (α × List β)) (k : α)
    (x : β) : lookupA (pushA l k x) k = (lookupA l k).map (fun v => v ++ [x]) := by
  induction l with
  | nil => rfl
  | cons kv rest ih =>
      obtain ⟨k', v⟩ := kv
      by_cases h : k' = k <;> simp [pushA, lookupA_cons, h, ih]

theorem lookupA_pushA_ne {α β : Type} [DecidableEq α] (l : List (α × List β)) (k k' : α)
    (x : β) (h : k' ≠ k) : lookupA (pushA l k x) k' = lookupA l k' := by
  induction l with
  | nil => rfl
  | cons kv rest ih =>
      obtain ⟨k0, v⟩ := kv
      by_cases h0 : k0 = k
      · subst h0
        have hne : ¬k0 = k' := fun hc => h (hc ▸ rfl)
        simp [pushA, lookupA_cons, hne]
      · by_cases h1 : k0 = k' <;> simp [pushA, lookupA_cons, h0, h1, ih, h]

theorem lookupA_map_snd {α β γ : Type} [DecidableEq α] (l : List (α × β)) (f : β → γ)
    (k : α) : lookupA (l.map (fun kv => (kv.1, f kv.2))) k = (lookupA l k).map f := by
  induction l with
  | nil => rfl
  | cons kv rest ih =>
      obtain ⟨k', v⟩ := kv
      by_cases h : k' = k <;> simp [lookupA_cons, h, ih]

theorem lookupA_init {α β : Type} [DecidableEq α] (keys : List α) (v0 : β) (k : α)
    (h : k ∈ keys) : lookupA (keys.map (fun c => (c, v0))) k = some v0 := by
  induction keys with
  | nil => cases h
  | cons k' rest ih =>
      by_cases h' : k' = k
      · simp [lookupA_cons, h']
      · rcases List.mem_cons.1 h with hh | hh
        · exact absurd hh.symm h'
        · simp [lookupA_cons, h', ih hh]

theorem lookupA_of_nodup_mem {α β : Type} [DecidableEq α] (l : List (α × β))
    (hnd : (l.map Prod.fst).Nodup) (kv : α × β) (hm : kv ∈ l) :
    lookupA l kv.1 = some kv.2 := by
  induction l with
  | nil => cases hm
  | cons hd rest ih =>
      obtain ⟨k', v'⟩ := hd
      simp only [List.map_cons, List.nodup_cons] at hnd
      rcases List.mem_cons.1 hm with hh | hh
      · subst hh; simp [lookupA_cons]
      · have hk : ¬k' = kv.1 := by
          intro he
          exact hnd.1 (he ▸ List.mem_map_of_mem Prod.fst hh)
        simp [lookupA_cons, hk, ih hnd.2 hh]

/-! ### mapO and foldO lemmas -/

theorem mapO_eq_some_of_forall {α β : Type} (f : α → Option β) (l : List α)
    (h : ∀ a ∈ l, (f a).isSome) : ∃ l', mapO f l = some l' := by
  induction l with
  | nil => exact ⟨[], rfl⟩
  | cons a as ih =>
      obtain ⟨b, hb⟩ := Option.isSome_iff_exists.1 (h a (List.mem_cons_self a as))
      obtain ⟨bs, hbs⟩ := ih (fun a' ha' => h a' (List.mem_cons_of_mem a ha'))
      exact ⟨b :: bs, by simp [mapO, hb, hbs]⟩

theorem mapO_length {α β : Type} (f : α → Option β) :
    ∀ (l : List α) (l' : List β), mapO f l = some l' → l'.length = l.length := by
  intro l
  induction l with
  | nil => intro l' h; simp only [mapO, Option.some_inj] at h; simp [← h]
  | cons a as ih =>
      intro l' h
      simp only [mapO] at h
      rcases hfa : f a with _ | b <;> rw [hfa] at h
      · exact absurd h (by simp)
      · rcases hrec : mapO f as with _ | bs <;> rw [hrec] at h
        · exact absurd h (by simp)
        · cases h; simp [ih bs hrec]

theorem mapO_mem {α β : Type} (f : α → Option β) :
    ∀ (l : List α) (l' : List β), mapO f l = some l' → ∀ b ∈ l', ∃ a ∈ l, f a = some b := by
  intro l
  induction l with
  | nil =>
      intro l' h b hb
      simp only [mapO, Option.some_inj] at h
      subst h; cases hb
  | cons a as ih =>
      intro l' h b hb
      simp only [mapO] at h
      rcases hfa : f a with _ | b0 <;> rw [hfa] at h
      · exact absurd h (by simp)
      · rcases hrec : mapO f as with _ | bs <;> rw [hrec] at h
        · exact absurd h (by simp)
        · cases h
          rcases List.mem_cons.1 hb with hh | hh
          · exact ⟨a, List.mem_cons_self a as, by simp [hfa, hh]⟩
          · obtain ⟨a', ha', hfa'⟩ := ih bs hrec b hh
            exact ⟨a', List.mem_cons_of_mem a ha', hfa'⟩

/-- Invariant preservation along a fallible fold. -/
theorem foldO_invariant {σ α : Type} (f : σ → α → Option σ) (P : σ → Prop) :
    ∀ (l : List α) (s s' : σ),
      (∀ t a t', a ∈ l → P t → f t a = some t' → P t') →
      P s → foldO f s l = some s' → P s' := by
  intro l
  induction l with
  | nil =>
      intro s s' _ hs h
      simp only [foldO, Option.some_inj] at h
      exact h ▸ hs
  | cons a as ih =>
      intro s s' hstep hs h
      simp only [foldO] at h
      rcases hfa : f s a with _ | s1 <;> rw [hfa] at h
      · exact absurd h (by simp)
      · exact ih s1 s' (fun t a' t' ha' => hstep t a' t' (List.mem_cons_of_mem a ha'))
          (hstep s a s1 (List.mem_cons_self a as) hs hfa) h

/-- A fallible fold succeeds when every step succeeds from any state
satisfying a preserved invariant. -/
theorem foldO_isSome {σ α : Type} (f : σ → α → Option σ) (P : σ → Prop) :
    ∀ (l : List α) (s : σ),
      (∀ t a, a ∈ l → P t → ∃ t', f t a = some t' ∧ P t') →
      P s → (foldO f s l).isSome := by
  intro l
  induction l with
  | nil => intro s _ _; simp [foldO]
  | cons a as ih =>
      intro s hstep hs
      obtain ⟨s1, hf, hP⟩ := hstep s a (List.mem_cons_self a as) hs
      simp only [foldO, hf]
      exact ih s1 (fun t a' ha' => hstep t a' (List.mem_cons_of_mem a ha')) hP

/-! ### Registry lemmas -/

theorem uniqueFirst_aux_mem (l : List String) :
    ∀ (acc : List String) (a : String),
      a ∈ l.foldl (fun acc x => if x ∈ acc then acc else acc ++ [x]) acc ↔
        a ∈ acc ∨ a ∈ l := by
  induction l with
  | nil => intro acc a; simp
  | cons x xs ih =>
      intro acc a
      by_cases hx : x ∈ acc
      · simp only [List.foldl_cons, if_pos hx, ih]
        constructor
        · rintro (h | h)
          · exact Or.inl h
          · exact Or.inr (List.mem_cons_of_mem x h)
        · rintro (h | h)
          · exact Or.inl h
          · rcases List.mem_cons.1 h with rfl | h
            · exact Or.inl hx
            · exact Or.inr h
      · simp only [List.foldl_cons, if_neg hx, ih, List.mem_append,
          List.mem_singleton, List.mem_cons]
        tauto

theorem mem_uniqueFirst (l : List String) (a : String) :
    a ∈ uniqueFirst l ↔ a ∈ l := by
  have := uniqueFirst_aux_mem l [] a
  simpa [uniqueFirst] using this

theorem uniqueFirst_aux_nodup (l : List String) :
    ∀ (acc : List String), acc.Nodup →
      (l.foldl (fun acc x => if x ∈ acc then acc else acc ++ [x]) acc).Nodup := by
  induction l with
  | nil => intro acc h; simpa
  | cons x xs ih =>
      intro acc h
      by_cases hx : x ∈ acc
      · simpa [List.foldl_cons, if_pos hx] using ih acc h
      · have h2 : (acc ++ [x]).Nodup := by
          rw [List.nodup_append]
          refine ⟨h, List.nodup_singleton x, ?_⟩
          intro a ha hax
          rcases List.mem_singleton.1 hax with rfl
          exact hx ha
        simpa [List.foldl_cons, if_neg hx] using ih (acc ++ [x]) h2

theorem uniqueFirst_nodup (l : List String) : (uniqueFirst l).Nodup :=
  uniqueFirst_aux_nodup l [] List.nodup_nil

theorem mem_of_mem_unorderedCombs (l : List String) (a b : String)
    (h : (a, b) ∈ unorderedCombs l) : a ∈ l ∧ b ∈ l := by
  induction l with
  | nil => cases h
  | cons x xs ih =>
      simp only [unorderedCombs, List.mem_append, List.mem_map] at h
      rcases h with ⟨b', hb', he⟩ | h
      · cases he
        exact ⟨List.mem_cons_self a xs, hb'⟩
      · obtain ⟨ha, hb⟩ := ih h
        exact ⟨List.mem_cons_of_mem x ha, List.mem_cons_of_mem x hb⟩

theorem unorderedCombs_complete (l : List String) (a b : String)
    (ha : a ∈ l) (hb : b ∈ l) :
    (a, b) ∈ unorderedCombs l ∨ (b, a) ∈ unorderedCombs l := by
  induction l with
  | nil => cases ha
  | cons x xs ih =>
      rcases List.mem_cons.1 ha with rfl | ha'
      · exact Or.inl (by
          simp only [unorderedCombs, List.mem_append, List.mem_map]
          exact Or.inl ⟨b, hb, rfl⟩)
      · rcases List.mem_cons.1 hb with rfl | hb'
        · exact Or.inr (by
            simp only [unorderedCombs, List.mem_append, List.mem_map]
            exact Or.inl ⟨a, List.mem_cons_of_mem b ha', rfl⟩)
        · rcases ih ha' hb' with h | h
          · exact Or.inl (by
              simp only [unorderedCombs, List.mem_append]
              exact Or.inr h)
          · exact Or.inr (by
              simp only [unorderedCombs, List.mem_append]
              exact Or.inr h)

theorem unorderedCombs_no_reverse (l : List String) (hnd : l.Nodup) (a b : String)
    (hab : a ≠ b) : ¬((a, b) ∈ unorderedCombs l ∧ (b, a) ∈ unorderedCombs l) := by
  induction l with
  | nil => rintro ⟨h, _⟩; cases h
  | cons x xs ih =>
      rintro ⟨h1, h2⟩
      simp only [unorderedCombs, List.mem_append, List.mem_map] at h1 h2
      have hx : x ∉ xs := (List.nodup_cons.1 hnd).1
      rcases h1 with ⟨b1, hb1, he1⟩ | h1
      · cases he1
        rcases h2 with ⟨a2, ha2, he2⟩ | h2
        · cases he2
          exact hab rfl
        · exact hx (mem_of_mem_unorderedCombs xs b a h2).2
      · rcases h2 with ⟨a2, ha2, he2⟩ | h2
        · have hbx : b = x := congrArg Prod.fst he2.symm
          exact hx (hbx ▸ (mem_of_mem_unorderedCombs xs a b h1).2)
        · exact ih (List.nodup_cons.1 hnd).2 ⟨h1, h2⟩

theorem unorderedCombs_nodup (l : List String) (hnd : l.Nodup) :
    (unorderedCombs l).Nodup := by
  induction l with
  | nil => exact List.nodup_nil
  | cons x xs ih =>
      have hx : x ∉ xs := (List.nodup_cons.1 hnd).1
      have hxs : xs.Nodup := (List.nodup_cons.1 hnd).2
      refine List.Nodup.append ?_ (ih hxs) ?_
      · exact (List.nodup_cons.2 ⟨hx, hxs⟩).map
          (fun b b' h => by simpa using congrArg Prod.snd h)
      · intro p hp hq
        obtain ⟨b', _, he⟩ := List.mem_map.1 hp
        have := (mem_of_mem_unorderedCombs xs p.1 p.2 (by
          obtain ⟨p1, p2⟩ := p; exact hq)).1
        exact hx (by cases he; exact this)

theorem unorderedCombs_length (l : List String) :
    2 * (unorderedCombs l).length = l.length * (l.length + 1) := by
  induction l with
  | nil => rfl
  | cons x xs ih =>
      simp only [unorderedCombs, List.length_append, List.length_map, List.length_cons]
      calc 2 * (xs.length + 1 + (unorderedCombs xs).length)
          = 2 * (xs.length + 1) + 2 * (unorderedCombs xs).length := by ring
        _ = 2 * (xs.length + 1) + xs.length * (xs.length + 1) := by rw [ih]
        _ = (xs.length + 1) * (xs.length + 1 + 1) := by ring

theorem mem_orderedCombs_iff (l : List String) (a b : String) :
    (a, b) ∈ orderedCombs l ↔ a ∈ l ∧ b ∈ l := by
  simp only [orderedCombs, List.mem_flatMap, List.mem_map]
  constructor
  · rintro ⟨i1, h1, i2, h2, he⟩
    cases he
    exact ⟨h1, h2⟩
  · rintro ⟨ha, hb⟩
    exact ⟨a, ha, b, hb, rfl⟩

theorem flatMap_pairs_length {A B : Type} (l1 : List A) (l2 : List B) :
    (l1.flatMap (fun i1 => l2.map (fun i2 => (i1, i2)))).length = l1.length * l2.length := by
  induction l1 with
  | nil => simp
  | cons y ys ih =>
      simp only [List.flatMap_cons, List.length_append, List.length_map, ih,
        List.length_cons]
      ring

theorem orderedCombs_length (l : List String) :
    (orderedCombs l).length = l.length * l.length :=
  flatMap_pairs_length l l

theorem orderedCombs_nodup (l : List String) (hnd : l.Nodup) :
    (orderedCombs l).Nodup := by
  have h : orderedCombs l = l ×ˢ l := rfl
  rw [h]
  exact List.Nodup.product hnd hnd

/-- Association-list lookup over a keyed map of a function. -/
theorem lookupA_keyed_map {β : Type} (g : String → β) (outer : List String) (a : String)
    (ha : a ∈ outer) :
    lookupA (outer.map (fun i1 => (i1, g i1))) a = some (g a) := by
  induction outer with
  | nil => cases ha
  | cons x xs ih =>
      by_cases hx : x = a
      · subst hx; simp [lookupA_cons]
      · rcases List.mem_cons.1 ha with rfl | ha'
        · exact absurd rfl hx
        · simp [lookupA_cons, hx, ih ha']

/-- Looking up a label's adjacency list in the registry's
`cell_relationships`. -/
theorem lookupA_registryRel (uni : List String) (a : String) (ha : a ∈ uni) :
    lookupA (uni.map (fun i1 => (i1, uni.map (fun i2 => (i1, i2))))) a =
      some (uni.map (fun i2 => (a, i2))) :=
  lookupA_keyed_map (fun i1 => uni.map (fun i2 => (i1, i2))) uni a ha

/-- Any successful lookup in a keyed map of a function returns the function's
value at the key. -/
theorem lookupA_keyed_map_inv {β : Type} (g : String → β) (outer : List String)
    (a : String) (v : β)
    (h : lookupA (outer.map (fun i1 => (i1, g i1))) a = some v) : v = g a := by
  induction outer with
  | nil => simp [lookupA_nil] at h
  | cons x xs ih =>
      simp only [List.map_cons, lookupA_cons] at h
      by_cases hx : x = a
      · rw [if_pos hx] at h
        cases h
        rw [hx]
      · rw [if_neg hx] at h
        exact ih h

/-- Every combination in a registry adjacency list has the looked-up label as
its first (center) component. -/
theorem registryRel_fst (uni : List String) (a : String) (lc : List Comb)
    (h : lookupA (uni.map (fun i1 => (i1, uni.map (fun i2 => (i1, i2))))) a = some lc) :
    ∀ c ∈ lc, c.1 = a := by
  have he := lookupA_keyed_map_inv (fun i1 => uni.map (fun i2 => (i1, i2))) uni a lc h
  subst he
  intro c hc
  obtain ⟨i2, _, hec⟩ := List.mem_map.1 hc
  rw [← hec]

/-! ### Counting-pipeline lemmas -/

/-- Inversion of a successful `stepComb`: exactly one storage entry — the
combination itself or its reverse — receives the pushed count. -/
theorem stepComb_eq_some (nl : List String) (st st' : List (Comb × List ℕ))
    (comb : Comb) (h : stepComb nl st comb = some st') :
    ∃ key, (key = comb ∨ key = (comb.2, comb.1)) ∧ (lookupA st key).isSome ∧
      st' = pushA st key (nl.count comb.2) := by
  simp only [stepComb] at h
  rcases h1 : lookupA st comb with _ | v1 <;> rw [h1] at h
  · rcases h2 : lookupA st (comb.2, comb.1) with _ | v2 <;> rw [h2] at h
    · exact absurd h (by simp)
    · cases h
      exact ⟨(comb.2, comb.1), Or.inr rfl, by simp [h2], rfl⟩
  · cases h
    exact ⟨comb, Or.inl rfl, by simp [h1], rfl⟩

/-- `stepComb` succeeds as soon as the combination or its reverse is a
storage key. -/
theorem stepComb_isSome (nl : List String) (st : List (Comb × List ℕ)) (comb : Comb)
    (h : (lookupA st comb).isSome ∨ (lookupA st (comb.2, comb.1)).isSome) :
    (stepComb nl st comb).isSome := by
  simp only [stepComb]
  rcases h1 : lookupA st comb with _ | v1
  · rcases h2 : lookupA st (comb.2, comb.1) with _ | v2
    · rcases h with h | h
      · rw [h1] at h; cases h
      · rw [h2] at h; cases h
    · simp
  · simp

/-- `stepComb` never changes the key set of the storage. -/
theorem stepComb_map_fst (nl : List String) (st st' : List (Comb × List ℕ))
    (comb : Comb) (h : stepComb nl st comb = some st') :
    st'.map Prod.fst = st.map Prod.fst := by
  obtain ⟨key, _, _, he⟩ := stepComb_eq_some nl st st' comb h
  rw [he, pushA_map_fst]

/-- `processPoint` never changes the key set of the storage. -/
theorem processPoint_map_fst (types : List String) (rel : List (String × List Comb))
    (ig : Bool) (st st' : List (Comb × List ℕ)) (kv : ℕ × List ℕ)
    (h : processPoint types rel ig st kv = some st') :
    st'.map Prod.fst = st.map Prod.fst := by
  simp only [processPoint, Option.bind_eq_some] at h
  obtain ⟨cent, h1, nl, h2, combs, h3, h4⟩ := h
  exact foldO_invariant (stepComb nl)
    (fun t => t.map Prod.fst = st.map Prod.fst) combs st st'
    (fun t a t' _ hP hstep => (stepComb_map_fst nl t t' a hstep).trans hP)
    rfl h4

/-- A successful `count_neighbors` result is keyed exactly (and in order) by
the registered combination list. -/
theorem count_neighbors_map_fst (types : List String)
    (neighbors : List (ℕ × List ℕ)) (cell_combs : List Comb)
    (rel : List (String × List Comb)) (ig : Bool) (res : List (Comb × ℚ))
    (h : count_neighbors types neighbors cell_combs rel ig = some res) :
    res.map Prod.fst = cell_combs := by
  simp only [count_neighbors, Option.map_eq_some'] at h
  obtain ⟨storage, h1, h2⟩ := h
  have hkeys : storage.map Prod.fst = cell_combs :=
    foldO_invariant (processPoint types rel ig)
      (fun t => t.map Prod.fst = cell_combs) neighbors
      (cell_combs.map (fun comb => (comb, ([] : List ℕ)))) storage
      (fun t a t' _ hP hstep => (processPoint_map_fst types rel ig t t' a hstep).trans hP)
      (by simp [Function.comp_def]) h1
  subst h2
  calc (storage.map (fun kv => (kv.1, mean kv.2))).map Prod.fst
      = storage.map Prod.fst := by simp
    _ = cell_combs := hkeys

/-- `accumulate` never changes the key set. -/
theorem accumulate_map_fst (sim sim' : List (Comb × List ℚ)) (perm : List (Comb × ℚ))
    (h : accumulate sim perm = some sim') : sim'.map Prod.fst = sim.map Prod.fst := by
  simp only [accumulate] at h
  exact foldO_invariant _ (fun t => t.map Prod.fst = sim.map Prod.fst) perm sim sim'
    (fun t a t' _ hP hstep => by
      simp only [Option.map_eq_some'] at hstep
      obtain ⟨v, _, he⟩ := hstep
      rw [← he, pushA_map_fst, hP])
    rfl h

/-- Value-level description of `accumulate`: each key's list is extended by
the values of the trial entries carrying that key, in order. -/
theorem accumulate_lookupA (perm : List (Comb × ℚ)) :
    ∀ (sim sim' : List (Comb × List ℚ)), accumulate sim perm = some sim' →
      ∀ k, lookupA sim' k =
        (lookupA sim k).map (fun l => l ++ (perm.filter (fun p => p.1 = k)).map Prod.snd) := by
  induction perm with
  | nil =>
      intro sim sim' h k
      simp only [accumulate, foldO, Option.some_inj] at h
      subst h
      simp
  | cons p rest ih =>
      intro sim sim' h k
      simp only [accumulate, foldO] at h
      rcases h1 : lookupA sim p.1 with _ | v <;> rw [h1] at h
      · exact absurd h (by simp)
      · simp only [Option.map_some'] at h
        have hrec := ih (pushA sim p.1 p.2) sim' h k
        by_cases hk : p.1 = k
        · subst hk
          rw [hrec, lookupA_pushA_self, h1]
          simp [List.filter_cons, List.append_assoc]
        · rw [hrec, lookupA_pushA_ne sim p.1 k p.2 (fun hc => hk hc.symm)]
          simp [List.filter_cons, hk]

/-- Value-level description of the whole accumulation over all trials. -/
theorem simulate_fold_lookupA (all_data : List (List (Comb × ℚ))) :
    ∀ (sim sim' : List (Comb × List ℚ)), foldO accumulate sim all_data = some sim' →
      ∀ k, lookupA sim' k =
        (lookupA sim k).map (fun l =>
          l ++ (all_data.map (fun perm =>
            (perm.filter (fun p => p.1 = k)).map Prod.snd)).flatten) := by
  induction all_data with
  | nil =>
      intro sim sim' h k
      simp only [foldO, Option.some_inj] at h
      subst h
      simp
  | cons perm rest ih =>
      intro sim sim' h k
      simp only [foldO] at h
      rcases h1 : accumulate sim perm with _ | sim1 <;> rw [h1] at h
      · exact absurd h (by simp)
      · have hrec := ih sim1 sim' h k
        rw [hrec, accumulate_lookupA perm sim sim1 h1 k]
        cases lookupA sim k <;> simp [List.append_assoc]

/-! ### Further helper lemmas -/

theorem snd_mem_of_mem_enum {α : Type} (l : List α) (p : ℕ × α) (h : p ∈ l.enum) :
    p.2 ∈ l := by
  obtain ⟨i, x⟩ := p
  rw [List.mk_mem_enum_iff_getElem?] at h
  exact List.getElem?_mem h

theorem mem_enum_iff_get? {α : Type} (l : List α) (i : ℕ) (x : α) :
    (i, x) ∈ l.enum ↔ l.get? i = some x := by
  rw [List.mk_mem_enum_iff_getElem?, List.get?_eq_getElem?]

theorem get?_isSome_of_lt {α : Type} (l : List α) (n : ℕ) (h : n < l.length) :
    (l.get? n).isSome := by
  rw [List.get?_eq_getElem?]
  simp [List.getElem?_eq_some_iff, h]

/-- The two `pvalTallies` components count `≥ real` and `< real` trials:
the `else if i <= real` branch is only reached when `i < real`. -/
theorem pvalTallies_foldl (real : ℚ) :
    ∀ (v : List ℚ) (gl : ℤ × ℤ),
      v.foldl (fun gl i =>
        if i ≥ real then (gl.1 + 1, gl.2)
        else if i ≤ real then (gl.1, gl.2 + 1)
        else gl) gl =
      (gl.1 + v.countP (fun i => real ≤ i), gl.2 + v.countP (fun i => i < real)) := by
  intro v
  induction v with
  | nil => intro gl; simp
  | cons i rest ih =>
      intro gl
      by_cases h1 : real ≤ i
      · have h2 : ¬i < real := not_lt.2 h1
        simp only [List.foldl_cons, ge_iff_le, if_pos h1, ih, List.countP_cons,
          h1, h2]
        simp
        omega
      · have h2 : i < real := lt_of_not_le h1
        have h3 : i ≤ real := le_of_lt h2
        simp only [List.foldl_cons, ge_iff_le, if_neg h1, if_pos h3, ih,
          List.countP_cons, h1, h2]
        simp
        omega

/-- `std_f` of a constant list is zero. -/
theorem std_f_const (v : List ℚ) (c : ℚ) (h : ∀ x ∈ v, x = c) : std_f v = 0 := by
  rcases v with _ | ⟨a, rest⟩
  · simp [std_f]
  · have hlen : ((a :: rest).length : ℚ) ≠ 0 := by
      simp only [List.length_cons, Nat.cast_add, Nat.cast_one]
      positivity
    have hrep : (a :: rest) = List.replicate (a :: rest).length c :=
      List.eq_replicate_of_mem h
    have hsum : (a :: rest).sum = ((a :: rest).length : ℚ) * c := by
      rw [hrep]
      simp [List.sum_replicate, nsmul_eq_mul]
    have hmean : mean_f (a :: rest) = c := by
      rw [mean_f, if_pos (by simp)]
      rw [hsum]
      field_simp
    have hsq : ((a :: rest).map (fun x => (mean_f (a :: rest) - x) ^ 2)).sum = 0 := by
      rw [List.sum_eq_zero]
      intro q hq
      obtain ⟨x, hx, he⟩ := List.mem_map.1 hq
      rw [← he, hmean, h x hx]
      ring
    rw [std_f, if_pos (by simp), hsq]
    simp [sqrtQ]

/-! ### Claim theorems -/

/-- C8: For the concrete input x = [true, true, false, false],
y = [false, true, false, true], neighbors = {0:[1,2], 1:[0,3], 2:[], 3:[]}
with ignore_self = false, the real boolean co-occurrence count computed by
`comb_count_neighbors` equals exactly 2. -/
theorem C8_boolean_example :
    comb_count_neighbors [true, true, false, false] [false, true, false, true]
      [(0, [1, 2]), (1, [0, 3]), (2, []), (3, [])] false = some 2 := by decide

/-- C1 counterexample: a single trial value exactly equal to the real
statistic (both 0) is tallied as (gt, lt) = (1, 0), not (1, 1): the `else if`
in the source sends a tie to the `gt` tally only, so it is **not**
double-counted toward `lt` as the claim states. -/
theorem C1_tie_counterexample :
    pvalTallies [(0 : ℚ)] 0 = (1, 0) ∧
      ¬((pvalTallies [(0 : ℚ)] 0).1 = 1 ∧ (pvalTallies [(0 : ℚ)] 0).2 = 1) := by
  constructor
  · decide
  · decide

/-- C1 (amended): in p-value mode a trial value equal to the real statistic
satisfies the `>=` comparison and is counted toward `gt` only; the `<=`
branch is an `else if`, so `lt` counts exactly the trials strictly below the
real value.  Each tally is then divided by (trials + 1) in `pvalReduce`. -/
theorem C1_tie_gt_only (v : List ℚ) (real : ℚ) :
    pvalTallies v real =
      ((v.countP (fun i => real ≤ i) : ℤ), (v.countP (fun i => i < real) : ℤ)) := by
  have h := pvalTallies_foldl real v (0, 0)
  simpa [pvalTallies] using h

/-- C3: the label-path `count_neighbors` drops a neighbor entry under
`ignore_self` exactly when the neighbor's own index equals the center `k`
(identity comparison), but the boolean path `comb_count_neighbors` compares
the neighbor's *position in the list* with `k`: on
x = [false, true], y = [false, true], neighbors = {1: [1]}, ignore_self = true
the self-neighbor `1` sits at position 0 ≠ 1, so it is counted and the
result is 1 (identity-based filtering would give 0). -/
theorem C3_self_exclusion :
    (∀ (k : ℕ) (v : List ℕ) (i : ℕ),
        i ∈ filteredNeighbors k v true ↔ i ∈ v ∧ i ≠ k) ∧
      comb_count_neighbors [false, true] [false, true] [(1, [1])] true = some 1 := by
  constructor
  · intro k v i
    simp [filteredNeighbors, List.mem_filter]
  · decide

/-- C2: the `"zscore"` branch of `CellCombs::bootstrap` guards the division,
so a combination whose trial samples are all identical reports exactly 0;
but `comb_bootstrap` divides without any guard, and on x = [true],
y = [false], neighbors = {0:[0]} (where every shuffle of y equals y, so all
trial counts equal the real count and the standard deviation is exactly 0)
it performs the division by zero (IEEE NaN), not 0. -/
theorem C2_zero_variance :
    (∀ (v : List ℚ) (c real : ℚ), (∀ x ∈ v, x = c) →
        zscoreReduce v real = ZOut.val 0) ∧
      comb_bootstrap [true] [false] [(0, [0])] false [[false], [false], [false]]
        = some ZOut.divZero := by
  constructor
  · intro v c real h
    have hsd : std_f v = 0 := std_f_const v c h
    simp [zscoreReduce, hsd]
  · norm_num [comb_bootstrap, comb_count_neighbors, foldO, mapO, mean, std, sqrtQ, fdiv]

/-- C2 witness: the guarded z-score reduction at the concrete constant null
distribution [2, 2] with real statistic 7 reports exactly 0. -/
theorem C2_zero_variance_witness : zscoreReduce [2, 2] 7 = ZOut.val 0 :=
  C2_zero_variance.1 [2, 2] 2 7 (by
    intro x hx
    rcases List.mem_cons.1 hx with rfl | hx
    · rfl
    · rcases List.mem_singleton.1 hx with rfl
      rfl)

/-- C5: for a distinct-label vocabulary of size k, `CellCombs::new` produces
exactly k·k combinations in ordered mode and k(k+1)/2 in unordered mode; for
a vocabulary of size 1 it produces exactly the single self-pair (L, L) in
either mode. -/
theorem C5_registry_sizes (types : List String) :
    (CellCombs.new types true).1.length =
        (uniqueFirst types).length * (uniqueFirst types).length ∧
      (CellCombs.new types false).1.length =
        (uniqueFirst types).length * ((uniqueFirst types).length + 1) / 2 ∧
      ∀ L, uniqueFirst types = [L] →
        (CellCombs.new types false).1 = [(L, L)] ∧
          (CellCombs.new types true).1 = [(L, L)] := by
  refine ⟨?_, ?_, ?_⟩
  · simp only [CellCombs.new, if_pos]
    exact orderedCombs_length (uniqueFirst types)
  · simp only [CellCombs.new, Bool.false_eq_true, if_false]
    have h2 := unorderedCombs_length (uniqueFirst types)
    omega
  · intro L hL
    constructor
    · simp only [CellCombs.new, hL]
      rfl
    · simp only [CellCombs.new, hL]
      rfl

/-- C5 witness: on the input ["A", "A"] (vocabulary of size 1) the unordered
registry is exactly the single self-pair. -/
theorem C5_registry_sizes_witness :
    (CellCombs.new ["A", "A"] false).1 = [("A", "A")] :=
  ((C5_registry_sizes ["A", "A"]).2.2 "A" (by decide)).1

/-- C4: in unordered mode the registry never contains a pair together with
its reverse-oriented duplicate, every pair of vocabulary labels is reachable
through exactly this canonical routing (the pair or its reverse is
registered), and each `stepComb` of `count_neighbors` appends its observation
to exactly one storage entry — the combination itself or its canonical
reverse — leaving every other entry untouched. -/
theorem C4_canonical_routing (types0 : List String) :
    (∀ a b, a ≠ b →
        ¬((a, b) ∈ (CellCombs.new types0 false).1 ∧
          (b, a) ∈ (CellCombs.new types0 false).1)) ∧
      (∀ a b, a ∈ uniqueFirst types0 → b ∈ uniqueFirst types0 →
        (a, b) ∈ (CellCombs.new types0 false).1 ∨
          (b, a) ∈ (CellCombs.new types0 false).1) ∧
      ∀ (nl : List String) (st st' : List (Comb × List ℕ)) (comb : Comb),
        stepComb nl st comb = some st' →
        ∃ key, (key = comb ∨ key = (comb.2, comb.1)) ∧
          lookupA st' key = (lookupA st key).map (fun l => l ++ [nl.count comb.2]) ∧
          ∀ k', k' ≠ key → lookupA st' k' = lookupA st k' := by
  have hcombs : (CellCombs.new types0 false).1 = unorderedCombs (uniqueFirst types0) := by
    simp [CellCombs.new]
  refine ⟨?_, ?_, ?_⟩
  · intro a b hab
    rw [hcombs]
    exact unorderedCombs_no_reverse (uniqueFirst types0)
      (uniqueFirst_nodup types0) a b hab
  · intro a b ha hb
    rw [hcombs]
    exact unorderedCombs_complete (uniqueFirst types0) a b ha hb
  · intro nl st st' comb h
    obtain ⟨key, hkey, _, he⟩ := stepComb_eq_some nl st st' comb h
    refine ⟨key, hkey, ?_, ?_⟩
    · rw [he, lookupA_pushA_self]
    · intro k' hk'
      rw [he, lookupA_pushA_ne st key k' (nl.count comb.2) hk']

/-- C4 witness: for the vocabulary ["A", "B"], the unordered registry does
not contain both ("A", "B") and ("B", "A"). -/
theorem C4_canonical_routing_witness :
    ¬(("A", "B") ∈ (CellCombs.new ["A", "B"] false).1 ∧
      ("B", "A") ∈ (CellCombs.new ["A", "B"] false).1) :=
  (C4_canonical_routing ["A", "B"]).1 "A" "B" (by decide)

/-- With in-bounds indices, a center label from the registry vocabulary and
a storage keyed by the registered combinations, `processPoint` succeeds and
preserves the storage keys. -/
theorem processPoint_isSome (types0 types : List String) (order : Bool)
    (ig : Bool) (st : List (Comb × List ℕ)) (kv : ℕ × List ℕ)
    (hk : kv.1 < types.length) (hc : ∀ c ∈ kv.2, c < types.length)
    (hvocab : ∀ t ∈ types, t ∈ uniqueFirst types0)
    (hkeys : st.map Prod.fst = (CellCombs.new types0 order).1) :
    ∃ st', processPoint types (CellCombs.new types0 order).2 ig st kv = some st' ∧
      st'.map Prod.fst = (CellCombs.new types0 order).1 := by
  obtain ⟨cent, hcent⟩ := Option.isSome_iff_exists.1 (get?_isSome_of_lt types kv.1 hk)
  have hcentv : cent ∈ uniqueFirst types0 := hvocab cent (List.get?_mem hcent)
  have hfilter : ∀ i ∈ filteredNeighbors kv.1 kv.2 ig, i ∈ kv.2 := by
    intro i hi
    rcases ig with _ | _
    · simpa [filteredNeighbors] using hi
    · have h2 : i ∈ kv.2 ∧ ¬i = kv.1 := by simpa [filteredNeighbors] using hi
      exact h2.1
  obtain ⟨nl, hnl⟩ := mapO_eq_some_of_forall types.get?
    (filteredNeighbors kv.1 kv.2 ig)
    (fun i hi => get?_isSome_of_lt types i (hc i (hfilter i hi)))
  have hrel : lookupA (CellCombs.new types0 order).2 cent =
      some ((uniqueFirst types0).map (fun i2 => (cent, i2))) := by
    simp only [CellCombs.new]
    exact lookupA_registryRel (uniqueFirst types0) cent hcentv
  have hfold : (foldO (stepComb nl) st
      ((uniqueFirst types0).map (fun i2 => (cent, i2)))).isSome := by
    refine foldO_isSome (stepComb nl)
      (fun t => t.map Prod.fst = (CellCombs.new types0 order).1)
      ((uniqueFirst types0).map (fun i2 => (cent, i2))) st ?_ hkeys
    intro t comb hcomb hP
    obtain ⟨b, hb, hbe⟩ := List.mem_map.1 hcomb
    have hmem : comb ∈ (CellCombs.new types0 order).1 ∨
        (comb.2, comb.1) ∈ (CellCombs.new types0 order).1 := by
      rcases order with _ | _
      · have : (CellCombs.new types0 false).1 = unorderedCombs (uniqueFirst types0) := by
          simp [CellCombs.new]
        rw [this]
        rw [← hbe]
        exact unorderedCombs_complete (uniqueFirst types0) cent b hcentv hb
      · have : (CellCombs.new types0 true).1 = orderedCombs (uniqueFirst types0) := by
          simp [CellCombs.new]
        rw [this]
        rw [← hbe]
        exact Or.inl ((mem_orderedCombs_iff (uniqueFirst types0) cent b).2 ⟨hcentv, hb⟩)
    have hsome : (stepComb nl t comb).isSome := by
      refine stepComb_isSome nl t comb ?_
      rcases hmem with hmem | hmem
      · exact Or.inl ((lookupA_isSome_iff t comb).2 (by rw [hP]; exact hmem))
      · exact Or.inr ((lookupA_isSome_iff t (comb.2, comb.1)).2 (by rw [hP]; exact hmem))
    obtain ⟨t', ht'⟩ := Option.isSome_iff_exists.1 hsome
    exact ⟨t', ht', (stepComb_map_fst nl t t' comb ht').trans hP⟩
  obtain ⟨st', hst'⟩ := Option.isSome_iff_exists.1 hfold
  refine ⟨st', ?_, ?_⟩
  · simp only [processPoint, hcent, Option.some_bind, hnl, hrel]
    exact hst'
  · exact foldO_invariant (stepComb nl)
      (fun t => t.map Prod.fst = (CellCombs.new types0 order).1)
      ((uniqueFirst types0).map (fun i2 => (cent, i2))) st st'
      (fun t a t' _ hP hstep => (stepComb_map_fst nl t t' a hstep).trans hP)
      hkeys hst'

/-- C7: both counting paths are total when every neighbor-map key and every
neighbor index is strictly below the label/flag sequence length (for the
label path, with labels drawn from the registry's vocabulary); and the
out-of-bounds error branch is reachable — a neighbor index beyond the
sequence length makes each function hit the panic (`none`) rather than
return a validation error. -/
theorem C7_index_preconditions :
    (∀ (x y : List Bool) (nbrs : List (ℕ × List ℕ)) (ig : Bool),
        (∀ kv ∈ nbrs, kv.1 < x.length ∧ ∀ c ∈ kv.2, c < y.length) →
        (comb_count_neighbors x y nbrs ig).isSome) ∧
      (∀ (types0 types : List String) (order : Bool) (nbrs : List (ℕ × List ℕ))
          (ig : Bool),
        (∀ kv ∈ nbrs, kv.1 < types.length ∧ ∀ c ∈ kv.2, c < types.length) →
        (∀ t ∈ types, t ∈ uniqueFirst types0) →
        (count_neighbors types nbrs (CellCombs.new types0 order).1
          (CellCombs.new types0 order).2 ig).isSome) ∧
      comb_count_neighbors [true] [true] [(0, [5])] false = none ∧
      count_neighbors ["A"] [(0, [3])] (CellCombs.new ["A"] false).1
        (CellCombs.new ["A"] false).2 false = none := by
  refine ⟨?_, ?_, by decide, by decide⟩
  · intro x y nbrs ig hprec
    simp only [comb_count_neighbors]
    refine foldO_isSome _ (fun _ => True) nbrs 0 ?_ trivial
    intro t kv hkv _
    obtain ⟨hk, hc⟩ := hprec kv hkv
    obtain ⟨xk, hxk⟩ := Option.isSome_iff_exists.1 (get?_isSome_of_lt x kv.1 hk)
    rw [List.get?_eq_getElem?] at hxk
    rcases xk with _ | _
    · exact ⟨t, by simp [hxk], trivial⟩
    · rcases ig with _ | _
      · have hfold : (foldO (fun c cc =>
            (y.get? cc).map (fun yc => if yc then c + 1 else c)) t kv.2).isSome := by
          refine foldO_isSome _ (fun _ => True) kv.2 t ?_ trivial
          intro c cc hcc _
          obtain ⟨yc, hyc⟩ := Option.isSome_iff_exists.1
            (get?_isSome_of_lt y cc (hc cc hcc))
          rw [List.get?_eq_getElem?] at hyc
          exact ⟨if yc then c + 1 else c, by simp [hyc], trivial⟩
        obtain ⟨t', ht'⟩ := Option.isSome_iff_exists.1 hfold
        refine ⟨t', ?_, trivial⟩
        simp only [List.get?_eq_getElem?] at ht'
        simp [hxk, ht']
      · have hfold : (foldO (fun c ic =>
            if ic.1 ≠ kv.1 then
              (y.get? ic.2).map (fun yc => if yc then c + 1 else c)
            else some c) t kv.2.enum).isSome := by
          refine foldO_isSome _ (fun _ => True) kv.2.enum t ?_ trivial
          intro c ic hic _
          by_cases hpos : ic.1 = kv.1
          · exact ⟨c, by simp [hpos], trivial⟩
          · obtain ⟨yc, hyc⟩ := Option.isSome_iff_exists.1
              (get?_isSome_of_lt y ic.2 (hc ic.2 (snd_mem_of_mem_enum kv.2 ic hic)))
            rw [List.get?_eq_getElem?] at hyc
            exact ⟨if yc then c + 1 else c, by simp [hpos, hyc], trivial⟩
        obtain ⟨t', ht'⟩ := Option.isSome_iff_exists.1 hfold
        refine ⟨t', ?_, trivial⟩
        simp only [List.get?_eq_getElem?] at ht'
        simp [hxk]
        simpa using ht'

  · intro types0 types order nbrs ig hprec hvocab
    simp only [count_neighbors]
    rw [Option.isSome_map']
    refine foldO_isSome _
      (fun t => t.map Prod.fst = (CellCombs.new types0 order).1) nbrs _ ?_
      (by simp [Function.comp_def])
    intro t kv hkv hP
    obtain ⟨hk, hc⟩ := hprec kv hkv
    obtain ⟨st', h1, h2⟩ := processPoint_isSome types0 types order ig t kv hk hc hvocab hP
    exact ⟨st', h1, h2⟩

/-- C7 witness: concrete in-bounds inputs on which both counting paths
succeed. -/
theorem C7_index_preconditions_witness :
    (comb_count_neighbors [true] [false] [(0, [0])] false).isSome = true ∧
      (count_neighbors ["A"] [(0, [0])] (CellCombs.new ["A"] false).1
        (CellCombs.new ["A"] false).2 false).isSome = true :=
  ⟨C7_index_preconditions.1 [true] [false] [(0, [0])] false (by decide),
   C7_index_preconditions.2.1 ["A"] ["A"] false [(0, [0])] false (by decide) (by decide)⟩

/-- Pushing onto an existing key grows the total observation count by one
and the observation sum by the pushed value. -/
theorem totalObs_sumObs_pushA (st : List (Comb × List ℕ)) (key : Comb) (x : ℕ)
    (h : (lookupA st key).isSome) :
    totalObs (pushA st key x) = totalObs st + 1 ∧
      sumObs (pushA st key x) = sumObs st + x := by
  induction st with
  | nil => simp [lookupA_nil] at h
  | cons kv rest ih =>
      obtain ⟨k', v⟩ := kv
      by_cases hk : k' = key
      · subst hk
        simp [pushA, totalObs, sumObs]
        constructor <;> omega
      · have h' : (lookupA rest key).isSome := by
          simpa [lookupA_cons, hk] using h
        obtain ⟨h1, h2⟩ := ih h'
        simp only [pushA, if_neg hk, totalObs, sumObs, List.map_cons, List.sum_cons] at *
        omega

/-- Folding `stepComb` with an empty neighbor-label list over an adjacency
list appends one 0-valued observation per combination: the total count grows
by the adjacency-list length, the sum of observations is unchanged. -/
theorem foldO_stepComb_nil_obs :
    ∀ (combs : List Comb) (st st' : List (Comb × List ℕ)),
      foldO (stepComb ([] : List String)) st combs = some st' →
      totalObs st' = totalObs st + combs.length ∧ sumObs st' = sumObs st := by
  intro combs
  induction combs with
  | nil =>
      intro st st' h
      simp only [foldO, Option.some_inj] at h
      subst h
      simp
  | cons comb rest ih =>
      intro st st' h
      simp only [foldO] at h
      rcases h1 : stepComb ([] : List String) st comb with _ | st1 <;> rw [h1] at h
      · exact absurd h (by simp)
      · obtain ⟨key, _, hsome, he⟩ := stepComb_eq_some [] st st1 comb h1
        have hcount : List.count comb.2 ([] : List String) = 0 := rfl
        obtain ⟨ht, hs⟩ := totalObs_sumObs_pushA st key (List.count comb.2 []) hsome
        obtain ⟨ht', hs'⟩ := ih st1 st' h
        subst he
        constructor
        · rw [ht', ht]
          simp [List.length_cons]
          omega
        · rw [hs', hs, hcount]
          omega

/-- During `processPoint` for a center labeled `cent`, a storage entry whose
key involves neither `cent` as first nor as second component is never
touched. -/
theorem processPoint_lookup_preserved (types : List String)
    (uni : List String) (ig : Bool) (st st' : List (Comb × List ℕ))
    (kv : ℕ × List ℕ) (c : Comb)
    (h : processPoint types (uni.map (fun i1 => (i1, uni.map (fun i2 => (i1, i2))))) ig
      st kv = some st')
    (hc : ∀ cent, types.get? kv.1 = some cent → cent ≠ c.1 ∧ cent ≠ c.2) :
    lookupA st' c = lookupA st c := by
  simp only [processPoint, Option.bind_eq_some] at h
  obtain ⟨cent, h1, nl, h2, combsList, h3, h4⟩ := h
  obtain ⟨hc1, hc2⟩ := hc cent h1
  have hfst : ∀ comb ∈ combsList, comb.1 = cent := registryRel_fst uni cent combsList h3
  exact foldO_invariant (stepComb nl) (fun t => lookupA t c = lookupA st c)
    combsList st st'
    (fun t comb t' hcomb hP hstep => by
      obtain ⟨key, hkey, _, he⟩ := stepComb_eq_some nl t t' comb hstep
      have hkc : c ≠ key := by
        rcases hkey with rfl | rfl
        · intro hcc
          exact hc1 (by rw [hcc]; exact (hfst key hcomb).symm)
        · intro hcc
          exact hc2 (by rw [hcc]; exact (hfst comb hcomb).symm)
      rw [he, lookupA_pushA_ne t key c _ hkc, hP])
    rfl h4

/-- C10: (a) every registered combination is present in the result of
`count_neighbors`, and a combination neither of whose labels ever occurs as
a center label reduces to mean exactly 0 — it is neither dropped nor an
error; (b) a center point whose (possibly `ignore_self`-filtered) neighbor
list is empty still contributes one 0-valued observation for every
combination in the center label's adjacency list: the observation total
grows by the adjacency-list length while the observation sum is unchanged. -/
theorem C10_zero_observations :
    (∀ (types0 types : List String) (order ig : Bool) (nbrs : List (ℕ × List ℕ))
        (res : List (Comb × ℚ)) (c : Comb),
        count_neighbors types nbrs (CellCombs.new types0 order).1
            (CellCombs.new types0 order).2 ig = some res →
        c ∈ (CellCombs.new types0 order).1 →
        (∃ q, lookupA res c = some q) ∧
          ((∀ kv ∈ nbrs, ∀ cent, types.get? kv.1 = some cent →
              cent ≠ c.1 ∧ cent ≠ c.2) →
            lookupA res c = some 0)) ∧
      ∀ (types0 types : List String) (order ig : Bool)
          (st st' : List (Comb × List ℕ)) (k : ℕ) (v : List ℕ) (cent : String)
          (combsList : List Comb),
        filteredNeighbors k v ig = [] →
        types.get? k = some cent →
        lookupA (CellCombs.new types0 order).2 cent = some combsList →
        processPoint types (CellCombs.new types0 order).2 ig st (k, v) = some st' →
        totalObs st' = totalObs st + combsList.length ∧ sumObs st' = sumObs st := by
  constructor
  · intro types0 types order ig nbrs res c h hcm
    have hrel : (CellCombs.new types0 order).2 =
        (uniqueFirst types0).map
          (fun i1 => (i1, (uniqueFirst types0).map (fun i2 => (i1, i2)))) := by
      simp [CellCombs.new]
    have hkeys := count_neighbors_map_fst types nbrs (CellCombs.new types0 order).1
      (CellCombs.new types0 order).2 ig res h
    constructor
    · have : (lookupA res c).isSome := (lookupA_isSome_iff res c).2 (by rw [hkeys]; exact hcm)
      exact Option.isSome_iff_exists.1 this
    · intro hnc
      simp only [count_neighbors, Option.map_eq_some'] at h
      obtain ⟨storage, h1, h2⟩ := h
      have hstor : lookupA storage c = some ([] : List ℕ) := by
        refine foldO_invariant (processPoint types (CellCombs.new types0 order).2 ig)
          (fun t => lookupA t c = some ([] : List ℕ)) nbrs _ storage ?_ ?_ h1
        · intro t kv t' hkv hP hstep
          rw [hrel] at hstep
          rw [← hP]
          exact processPoint_lookup_preserved types (uniqueFirst types0) ig t t' kv c
            hstep (hnc kv hkv)
        · exact lookupA_init (CellCombs.new types0 order).1 ([] : List ℕ) c hcm
      subst h2
      rw [lookupA_map_snd storage (fun v => mean v) c, hstor]
      simp [mean]
  · intro types0 types order ig st st' k v cent combsList hempty hcent hlook h
    have hrel : (CellCombs.new types0 order).2 =
        (uniqueFirst types0).map
          (fun i1 => (i1, (uniqueFirst types0).map (fun i2 => (i1, i2)))) := by
      simp [CellCombs.new]
    simp only [processPoint, Option.bind_eq_some] at h
    obtain ⟨cent', h1, nl, h2, combsList', h3, h4⟩ := h
    have he1 : cent' = cent := by
      rw [hcent] at h1
      exact (Option.some_inj.1 h1).symm
    subst he1
    have he2 : combsList' = combsList := by
      rw [hlook] at h3
      exact (Option.some_inj.1 h3).symm
    subst he2
    have hnl : nl = [] := by
      rw [hempty] at h2
      simpa [mapO] using h2.symm
    subst hnl
    exact foldO_stepComb_nil_obs _ st st' h4

/-- C10 witness: with vocabulary ["A", "B"] and the single center point 0
labeled "A" with an empty neighbor list, the combination ("B", "B") (label
"B" never a center) is present in the result with mean exactly 0. -/
theorem C10_zero_observations_witness :
    lookupA [(("A", "A"), (0 : ℚ)), (("A", "B"), 0), (("B", "B"), 0)] ("B", "B")
      = some 0 :=
  (C10_zero_observations.1 ["A", "B"] ["A"] false false [(0, [])]
      [(("A", "A"), (0 : ℚ)), (("A", "B"), 0), (("B", "B"), 0)] ("B", "B")
      (by norm_num [count_neighbors, CellCombs.new, uniqueFirst, unorderedCombs,
        processPoint, filteredNeighbors, mapO, foldO, stepComb, lookupA, pushA, mean,
        show ¬("A" : String) = "B" from by decide,
        show ¬("B" : String) = "A" from by decide])
      (by decide)).2
    (by decide)

/-- Association-list lookup in an index-keyed enumeration map. -/
theorem lookupA_enumFrom_map {α β : Type} (f : α → β) :
    ∀ (l : List α) (n i : ℕ),
      lookupA ((l.enumFrom n).map (fun ip => (ip.1, f ip.2))) (n + i) =
        (l.get? i).map f := by
  intro l
  induction l with
  | nil => intro n i; simp [lookupA_nil]
  | cons a as ih =>
      intro n i
      rcases i with _ | j
      · simp [List.enumFrom_cons, lookupA_cons]
      · have hne : ¬n = n + (j + 1) := by omega
        simp only [List.enumFrom_cons, List.map_cons, lookupA_cons, if_neg hne,
          List.get?_cons_succ]
        have h := ih (n + 1) j
        rw [show n + (j + 1) = n + 1 + j by omega]
        exact h

/-- C9: for r ≥ 0, `get_neighbors` maps every point index i to exactly the
indices whose (squared) Euclidean distance to point i is within the radius,
and in particular i's own list contains i itself (distance 0).  The radius
query itself is modelled from the spec (KDBush is an external crate). -/
theorem C9_get_neighbors_radius (points : List (ℚ × ℚ)) (r : ℚ) (hr : 0 ≤ r)
    (i : ℕ) (p : ℚ × ℚ) (hp : points.get? i = some p) :
    lookupA (get_neighbors points r) i = some (queryRadius points p r) ∧
      i ∈ queryRadius points p r ∧
      ∀ j, j ∈ queryRadius points p r ↔
        ∃ q, points.get? j = some q ∧ dist2 q p ≤ r * r := by
  have hmem : ∀ j, j ∈ queryRadius points p r ↔
      ∃ q, points.get? j = some q ∧ dist2 q p ≤ r * r := by
    intro j
    simp only [queryRadius, List.mem_map, List.mem_filter]
    constructor
    · rintro ⟨ip, ⟨hip, hd⟩, he⟩
      obtain ⟨i', q⟩ := ip
      subst he
      refine ⟨q, (mem_enum_iff_get? points i' q).1 hip, ?_⟩
      simpa using hd
    · rintro ⟨q, hq, hd⟩
      exact ⟨(j, q), ⟨(mem_enum_iff_get? points j q).2 hq, by simpa using hd⟩, rfl⟩
  refine ⟨?_, ?_, hmem⟩
  · have h := lookupA_enumFrom_map (fun c => queryRadius points c r) points 0 i
    simp only [Nat.zero_add] at h
    have he : points.enum = points.enumFrom 0 := rfl
    rw [get_neighbors, he, h, hp]
    rfl
  · refine (hmem i).2 ⟨p, hp, ?_⟩
    have hd : dist2 p p = 0 := by
      simp [dist2]
    rw [hd]
    exact mul_self_nonneg r

/-- C9 witness: two points at distance 5 with radius 5 — point 0's neighbor
list is exactly the query result, which contains point 0 itself. -/
theorem C9_get_neighbors_radius_witness :
    lookupA (get_neighbors [((0 : ℚ), (0 : ℚ)), (3, 4)] 5) 0 =
      some (queryRadius [((0 : ℚ), (0 : ℚ)), (3, 4)] (0, 0) 5) :=
  (C9_get_neighbors_radius [((0 : ℚ), (0 : ℚ)), (3, 4)] 5 (by norm_num) 0 (0, 0)
    (by rfl)).1

/-- In a duplicate-free list, exactly one element equals a given member. -/
theorem countP_eq_one_of_nodup_mem {α : Type} [DecidableEq α] (l : List α)
    (hnd : l.Nodup) (a : α) (h : a ∈ l) : l.countP (fun x => x = a) = 1 := by
  induction l with
  | nil => cases h
  | cons b rest ih =>
      rw [List.countP_cons]
      rcases List.mem_cons.1 h with rfl | hm
      · have hz : rest.countP (fun x => decide (x = a)) = 0 := by
          rw [List.countP_eq_zero]
          intro x hx
          simp only [decide_eq_true_eq]
          intro he
          exact (List.nodup_cons.1 hnd).1 (he ▸ hx)
        simp [hz]
      · have hb : ¬(b = a) := by
          intro he
          exact (List.nodup_cons.1 hnd).1 (he ▸ hm)
        rw [ih (List.nodup_cons.1 hnd).2 hm]
        simp [hb]

/-- The registered combination list is duplicate-free in either mode. -/
theorem cellCombsNodup (types0 : List String) (order : Bool) :
    (CellCombs.new types0 order).1.Nodup := by
  rcases order with _ | _
  · have h : (CellCombs.new types0 false).1 = unorderedCombs (uniqueFirst types0) := by
      simp [CellCombs.new]
    rw [h]
    exact unorderedCombs_nodup (uniqueFirst types0) (uniqueFirst_nodup types0)
  · have h : (CellCombs.new types0 true).1 = orderedCombs (uniqueFirst types0) := by
      simp [CellCombs.new]
    rw [h]
    exact orderedCombs_nodup (uniqueFirst types0) (uniqueFirst_nodup types0)

/-- C6: after a bootstrap simulation of T trials over the registry built by
`CellCombs::new`, every combination's null distribution in `simulate_data`
holds exactly T values. -/
theorem C6_null_distribution_length (types0 : List String) (order : Bool)
    (nbrs : List (ℕ × List ℕ)) (ig : Bool) (shuffles : List (List String))
    (sim : List (Comb × List ℚ))
    (h : bootstrapSim nbrs (CellCombs.new types0 order).1
      (CellCombs.new types0 order).2 ig shuffles = some sim) :
    ∀ kv ∈ sim, kv.2.length = shuffles.length := by
  intro kv hkv
  have hnodup := cellCombsNodup types0 order
  simp only [bootstrapSim, Option.bind_eq_some] at h
  obtain ⟨all_data, hmap, hsim⟩ := h
  have hlen : all_data.length = shuffles.length :=
    mapO_length _ shuffles all_data hmap
  have hkeys_all : ∀ perm ∈ all_data, perm.map Prod.fst = (CellCombs.new types0 order).1 := by
    intro perm hperm
    obtain ⟨ts, _, hts⟩ := mapO_mem _ shuffles all_data hmap perm hperm
    exact count_neighbors_map_fst ts nbrs (CellCombs.new types0 order).1
      (CellCombs.new types0 order).2 ig perm hts
  simp only [simulate_data] at hsim
  have hsimkeys : sim.map Prod.fst = (CellCombs.new types0 order).1 := by
    have := foldO_invariant accumulate
      (fun t => t.map Prod.fst = (CellCombs.new types0 order).1) all_data
      ((CellCombs.new types0 order).1.map (fun comb => (comb, ([] : List ℚ)))) sim
      (fun t a t' _ hP hstep => (accumulate_map_fst t t' a hstep).trans hP)
      (by simp [Function.comp_def]) hsim
    exact this
  have hmemk : kv.1 ∈ (CellCombs.new types0 order).1 := by
    rw [← hsimkeys]
    exact List.mem_map_of_mem Prod.fst hkv
  have hlook : lookupA sim kv.1 = some kv.2 :=
    lookupA_of_nodup_mem sim (by rw [hsimkeys]; exact hnodup) kv hkv
  have hfold := simulate_fold_lookupA all_data
    ((CellCombs.new types0 order).1.map (fun comb => (comb, ([] : List ℚ)))) sim hsim kv.1
  rw [lookupA_init (CellCombs.new types0 order).1 ([] : List ℚ) kv.1 hmemk] at hfold
  rw [hlook] at hfold
  have hkv2 : kv.2 = (all_data.map (fun perm =>
      (perm.filter (fun p => p.1 = kv.1)).map Prod.snd)).flatten := by
    simpa using hfold
  have hone : ∀ perm ∈ all_data,
      ((perm.filter (fun p => p.1 = kv.1)).map Prod.snd).length = 1 := by
    intro perm hperm
    rw [List.length_map, ← List.countP_eq_length_filter]
    have hcp : (perm.map Prod.fst).countP (fun x => x = kv.1) = 1 := by
      rw [hkeys_all perm hperm]
      exact countP_eq_one_of_nodup_mem (CellCombs.new types0 order).1 hnodup kv.1 hmemk
    rw [List.countP_map] at hcp
    exact hcp
  rw [hkv2, List.length_flatten, List.map_map,
    List.map_congr_left (fun perm hperm => (Function.comp_apply ▸ hone perm hperm :
      (List.length ∘ fun perm => (perm.filter (fun p => p.1 = kv.1)).map Prod.snd) perm = 1)),
    List.map_const', List.sum_replicate, hlen]
  simp

/-- C6 witness: a two-trial run over the single-label registry; the sole
combination's null distribution has exactly two entries. -/
theorem C6_null_distribution_length_witness :
    (("A", "A"), [(1 : ℚ), 1]).2.length = 2 :=
  C6_null_distribution_length ["A"] false [(0, [0])] false [["A"], ["A"]]
    [(("A", "A"), [(1 : ℚ), 1])]
    (by norm_num [bootstrapSim, count_neighbors, CellCombs.new, uniqueFirst,
      unorderedCombs, processPoint, filteredNeighbors, mapO, foldO, stepComb,
      lookupA, pushA, mean, simulate_data, accumulate])
    (("A", "A"), [(1 : ℚ), 1]) (by decide)
